import Mathlib

/-!
Verification development for `src/demo.cpp` of the `mercle_ckks` repository:
a CKKS-based privacy-preserving uniqueness check.  The encrypted pipeline
(lines 110-197 of `demo.cpp`) is embedded shallowly: ciphertexts are symbolic
expression trees over the homomorphic operations the demo invokes
(`Encrypt`, `EvalAdd`, `EvalSub`, `EvalMult`, `EvalSum`), and their noise-free
semantics is the slot-vector of rationals they would decrypt to.  Reals
(`double` in the source) are modelled as `ℚ`.
-/

namespace Mercle

/-- Symbolic ciphertext: the homomorphic-operation history of a ciphertext
produced by `demo.cpp`.  `enc v` is `cc->Encrypt(jointPublicKey, MakeCKKSPackedPlaintext v)`;
the four operation nodes are `EvalAdd`, `EvalSub`, `EvalMult`, `EvalSum`. -/
inductive CTExpr where
  | enc : List ℚ → CTExpr
  | evalAdd : CTExpr → CTExpr → CTExpr
  | evalSub : CTExpr → CTExpr → CTExpr
  | evalMult : CTExpr → CTExpr → CTExpr
  | evalSum : CTExpr → ℕ → CTExpr
deriving DecidableEq, Repr

/-- Noise-free CKKS slot semantics of a symbolic ciphertext.
`MakeCKKSPackedPlaintext` zero-pads the packed vector, so `enc v` reads slot `i`
as `v.getD i 0`; add/sub/mult act slot-wise; `EvalSum c batch` folds the `batch`
contiguous slots starting at each position (slot 0, the only slot the demo ever
reads, holds the full sum of slots `0..batch-1`). -/
def slots : CTExpr → ℕ → ℚ
  | .enc v, i => v.getD i 0
  | .evalAdd a b, i => slots a i + slots b i
  | .evalSub a b, i => slots a i - slots b i
  | .evalMult a b, i => slots a i * slots b i
  | .evalSum a batch, i => ∑ j ∈ Finset.range batch, slots a (i + j)

/-- The scalar the demo reads out of a decrypted ciphertext:
`decrypted->SetLength(1); GetCKKSPackedValue()[0].real()` — slot 0. -/
def val (c : CTExpr) : ℚ := slots c 0

/-- Plaintext dot product, as computed by the baseline loop at
`demo.cpp:69-73` (`s += query[k]*db[i][k]` for `k < DIM`). -/
def dotProduct (a b : List ℚ) : ℚ := (List.zipWith (· * ·) a b).sum

/-- Number of `EvalMult` nodes in a ciphertext's operation history. -/
def multCount : CTExpr → ℕ
  | .enc _ => 0
  | .evalAdd a b => multCount a + multCount b
  | .evalSub a b => multCount a + multCount b
  | .evalMult a b => multCount a + multCount b + 1
  | .evalSum a _ => multCount a

/-- Whether any `EvalSub` node occurs in a ciphertext's operation history. -/
def containsSub : CTExpr → Bool
  | .enc _ => false
  | .evalAdd a b => containsSub a || containsSub b
  | .evalSub _ _ => true
  | .evalMult a b => containsSub a || containsSub b
  | .evalSum a _ => containsSub a

/-- One encrypted similarity (`demo.cpp:126-133`): element-wise
`EvalMult(enc_query, enc_db[i])` followed by `EvalSum(prod, BATCH_SIZE)`. -/
def simCT (q v : List ℚ) (batch : ℕ) : CTExpr :=
  .evalSum (.evalMult (.enc q) (.enc v)) batch

/-- The vector `enc_sims` of encrypted similarities (`demo.cpp:124-134`). -/
def encSims (q : List ℚ) (db : List (List ℚ)) (batch : ℕ) : List CTExpr :=
  db.map (fun v => simCT q v batch)

/-- Embedding of the `pairwise_max` lambda (`demo.cpp:146-161`): it computes
`sum = EvalAdd(A, B)` and `diff = EvalSub(A, B)`, then discards `diff` and
returns `sum` ("Simplified: just return sum as approximation"). -/
def pairwise_max (A B : CTExpr) : CTExpr :=
  let sum := CTExpr.evalAdd A B
  let _diff := CTExpr.evalSub A B
  sum

/-- One tournament round (body of the loop at `demo.cpp:164-174`): adjacent
elements are paired by `f` (`for(i=0; i+1<size; i+=2)`); when the count is odd
the last element passes through unchanged (`next.push_back(working.back())`). -/
def roundStep {α : Type _} (f : α → α → α) : List α → List α
  | a :: b :: rest => f a b :: roundStep f rest
  | [a] => [a]
  | [] => []

/-- The `while(working.size() > 1)` tournament loop of `demo.cpp:164-174`,
with explicit fuel.  Each round at least halves a list of length ≥ 2, so fuel
equal to the initial length always suffices (proved below). -/
def reduceLoop {α : Type _} (f : α → α → α) : ℕ → List α → List α
  | 0, ws => ws
  | fuel + 1, ws => if ws.length ≤ 1 then ws else reduceLoop f fuel (roundStep f ws)

/-- The tournament reduction: run the round loop starting from the full list. -/
def tournament {α : Type _} (f : α → α → α) (ws : List α) : List α :=
  reduceLoop f ws.length ws

/-- Round counter for the same loop: how many times the loop body executes. -/
def reduceRounds {α : Type _} (f : α → α → α) : ℕ → List α → ℕ
  | 0, _ => 0
  | fuel + 1, ws => if ws.length ≤ 1 then 0 else reduceRounds f fuel (roundStep f ws) + 1

/-- Number of tournament rounds executed by `demo.cpp:164-174`. -/
def tournamentRounds {α : Type _} (f : α → α → α) (ws : List α) : ℕ :=
  reduceRounds f ws.length ws

/-- The purely-paired part of a round: every output element is `f` of an
adjacent input pair; a trailing unpaired element is dropped, not passed
through.  Used to state which rounds contain pass-through elements. -/
def pairedPart {α : Type _} (f : α → α → α) : List α → List α
  | a :: b :: rest => f a b :: pairedPart f rest
  | _ => []

/-- `enc_maxSim = working[0]` after the tournament (`demo.cpp:175`). -/
def encMaxSim (q : List ℚ) (db : List (List ℚ)) (batch : ℕ) : CTExpr :=
  (tournament pairwise_max (encSims q db batch)).headD (.enc [])

/-- The uniqueness decision of `demo.cpp:196-197`:
`is_unique = (max < SIMILARITY_THRESHOLD)`, strict inequality. -/
def isUnique (m t : ℚ) : Bool := decide (m < t)

/-- The packed threshold plaintext built at `demo.cpp:178-179`:
`std::vector<double> threshold_vec(DIM, 0.0); threshold_vec[0] = SIMILARITY_THRESHOLD`. -/
def thresholdVec (dim : ℕ) (t : ℚ) : List ℚ := (List.replicate dim 0).set 0 t

/-- A call into the homomorphic layer, as an event. -/
inductive CryptoEvent where
  | encryptEv : List ℚ → CryptoEvent
  | evalAddEv : CTExpr → CTExpr → CryptoEvent
  | evalSubEv : CTExpr → CTExpr → CryptoEvent
  | evalMultEv : CTExpr → CTExpr → CryptoEvent
  | evalSumEv : CTExpr → ℕ → CryptoEvent
  | decryptEv : CTExpr → CryptoEvent
deriving DecidableEq, Repr

/-- The homomorphic-layer calls the decision phase of `main` performs, in
source order (`demo.cpp:177-197`): `Encrypt` of the packed threshold
(line 181), then `Decrypt(kp0.secretKey, enc_maxSim, &decrypted)` (line 186).
No other call into the crypto layer occurs in that region; in particular no
`EvalSub` is invoked and `enc_threshold` is never used again. -/
def decisionEvents (encMax : CTExpr) (t : ℚ) (dim : ℕ) : List CryptoEvent :=
  [.encryptEv (thresholdVec dim t), .decryptEv encMax]

/-- Recognizer for homomorphic-subtraction events. -/
def isSubEv : CryptoEvent → Bool
  | .evalSubEv _ _ => true
  | _ => false

/-- Setup-phase steps of `main` (`demo.cpp:42-120`), as events.
`depthBudgetCheck` is the validation the spec requires
(`MULT_DEPTH_BUDGET ≥ 1 + rounds(N) × depth(approxAbs)`); the constructor
exists so its presence or absence in the actual trace can be stated. -/
inductive SetupEvent where
  | genVectors : SetupEvent
  | plaintextBaseline : SetupEvent
  | createContext : ℕ → ℕ → ℕ → SetupEvent
  | enableFeatures : SetupEvent
  | keyGen : SetupEvent
  | keyGenCheck : SetupEvent
  | evalMultKeyGen : SetupEvent
  | rotationKeyGen : SetupEvent
  | depthBudgetCheck : SetupEvent
  | encryptVector : ℕ → SetupEvent
  | encryptQuery : SetupEvent
deriving DecidableEq, Repr

/-- The setup steps `main` actually performs, in source order
(`demo.cpp:56-120`): vector generation and normalization (56-64), plaintext
baseline (66-75), context creation with `MULT_DEPTH = 10`, `SCALE_BITS = 40`,
`BATCH_SIZE = DIM = 64` (81-89), feature enabling (92-95), key generation with
its `kp0.good()` failure check (99-103), evaluation-key generation (107-108),
then encryption of the `dbN` database vectors (114-118) and the query (120).
No depth-budget validation appears anywhere in the source. -/
def mainSetupEvents (dbN : ℕ) : List SetupEvent :=
  [.genVectors, .plaintextBaseline, .createContext 10 40 64, .enableFeatures,
   .keyGen, .keyGenCheck, .evalMultKeyGen, .rotationKeyGen]
  ++ (List.range dbN).map .encryptVector
  ++ [.encryptQuery]

/-- Recognizer for encryption events in the setup phase. -/
def isEncryptEvent : SetupEvent → Bool
  | .encryptVector _ => true
  | .encryptQuery => true
  | _ => false

/-- The ciphertexts `main` ever passes to `Decrypt`: exactly one call exists
in the whole program, `cc->Decrypt(kp0.secretKey, enc_maxSim, &decrypted)` at
`demo.cpp:186`. -/
def mainDecrypts (q : List ℚ) (db : List (List ℚ)) (batch : ℕ) : List CTExpr :=
  [encMaxSim q db batch]

/-- Squared L2 norm, `s = Σ x*x` of `normalize_inplace` (`demo.cpp:34-35`). -/
def normSq (v : List ℚ) : ℚ := (v.map (fun x => x * x)).sum

/-- Embedding of `normalize_inplace` (`demo.cpp:33-39`), parameterized by the
square-root primitive (`std::sqrt`, an external numeric capability; any model
of it satisfies `sqrtf 0 = 0`): `s = sqrt(Σ x²); if (s == 0) return;` —
a zero-norm vector is returned unchanged, with no error — else divide each
entry by `s`. -/
def normalize (sqrtf : ℚ → ℚ) (v : List ℚ) : List ℚ :=
  let s := sqrtf (normSq v)
  if s = 0 then v else v.map (fun x => x / s)

/-- Error raised by the threshold-decryption coordinator on a sub-quorum call. -/
inductive DecryptError where
  | insufficientShares : DecryptError
deriving DecidableEq, Repr

/-- Modelled from the spec: the `ThresholdDecryptionCoordinator` of spec §4.4
is absent from the source (the demo calls single-party `cc->Decrypt` directly,
`demo.cpp:186`).  Shares are additive: a party holding key share `sk_i`
produces the partial decryption `c1 * sk_i` of the ciphertext component `c1`. -/
def partialDecrypt (share c1 : ℚ) : ℚ := c1 * share

/-- Modelled from the spec: full decryption of a linear ciphertext `(c0, c1)`
under secret key `sk` recovers the plaintext `c0 + c1 * sk`. -/
def decryptFull (c0 c1 sk : ℚ) : ℚ := c0 + c1 * sk

/-- Modelled from the spec: `ThresholdDecryptionCoordinator.Decrypt` (spec
§4.4) — with fewer than `t` partial decryptions it fails with
`InsufficientShares` and produces no plaintext; with ≥ `t` it merges the
partials by the scheme's combination rule (summation, for additive shares). -/
def coordinatorDecrypt (t : ℕ) (partials : List ℚ) (c0 : ℚ) : Except DecryptError ℚ :=
  if partials.length < t then .error .insufficientShares
  else .ok (c0 + partials.sum)

/-- The spec's `SecureMax` primitive (spec §4.2), with exact absolute value:
`secureMax(a,b) = (a + b + |a − b|) / 2`. -/
def secureMaxSpec (a b : ℚ) : ℚ := (a + b + |a - b|) / 2

/-! ### Helper lemmas about the tournament loop -/

theorem val_pairwise_max (a b : CTExpr) : val (pairwise_max a b) = val a + val b := rfl

theorem roundStep_length {α : Type _} (f : α → α → α) :
    ∀ xs : List α, (roundStep f xs).length = (xs.length + 1) / 2
  | [] => by simp [roundStep]
  | [_] => by simp [roundStep]
  | _ :: _ :: rest => by
      simp only [roundStep, List.length_cons, roundStep_length f rest]
      omega

theorem roundStep_ne_nil {α : Type _} (f : α → α → α) (xs : List α) (h : xs ≠ []) :
    roundStep f xs ≠ [] := by
  have hl := roundStep_length f xs
  have hx : 0 < xs.length := List.length_pos.mpr h
  intro hc
  rw [hc] at hl
  simp only [List.length_nil] at hl
  omega

theorem reduceLoop_length_le {α : Type _} (f : α → α → α) :
    ∀ (fuel : ℕ) (ws : List α), ws.length ≤ fuel + 1 → (reduceLoop f fuel ws).length ≤ 1
  | 0, ws, h => by simpa [reduceLoop] using h
  | fuel + 1, ws, h => by
      by_cases h1 : ws.length ≤ 1
      · simp [reduceLoop, h1]
      · have hlen := roundStep_length f ws
        simp only [reduceLoop, if_neg h1]
        exact reduceLoop_length_le f fuel _ (by omega)

theorem reduceLoop_ne_nil {α : Type _} (f : α → α → α) :
    ∀ (fuel : ℕ) (ws : List α), ws ≠ [] → reduceLoop f fuel ws ≠ []
  | 0, ws, h => by simp only [reduceLoop]; exact h
  | fuel + 1, ws, h => by
      by_cases h1 : ws.length ≤ 1
      · simpa [reduceLoop, h1] using h
      · simp only [reduceLoop, if_neg h1]
        exact reduceLoop_ne_nil f fuel _ (roundStep_ne_nil f ws h)

theorem reduceLoop_singleton {α : Type _} (f : α → α → α) :
    ∀ (fuel : ℕ) (c : α), reduceLoop f fuel [c] = [c]
  | 0, _ => rfl
  | _ + 1, _ => by simp [reduceLoop]

theorem tournament_length_one {α : Type _} (f : α → α → α) (ws : List α) (h : ws ≠ []) :
    (tournament f ws).length = 1 := by
  have h1 : (reduceLoop f ws.length ws).length ≤ 1 :=
    reduceLoop_length_le f ws.length ws (Nat.le_succ _)
  have h2 : reduceLoop f ws.length ws ≠ [] := reduceLoop_ne_nil f ws.length ws h
  have h3 : 0 < (reduceLoop f ws.length ws).length := List.length_pos.mpr h2
  unfold tournament
  omega

theorem reduceRounds_eq_clog {α : Type _} (f : α → α → α) :
    ∀ (fuel : ℕ) (ws : List α), ws.length ≤ fuel + 1 →
      reduceRounds f fuel ws = Nat.clog 2 ws.length
  | 0, ws, h => by
      simp [reduceRounds, Nat.clog_of_right_le_one h]
  | fuel + 1, ws, h => by
      by_cases h1 : ws.length ≤ 1
      · simp [reduceRounds, h1, Nat.clog_of_right_le_one h1]
      · have hlen := roundStep_length f ws
        have ih := reduceRounds_eq_clog f fuel (roundStep f ws) (by omega)
        simp only [reduceRounds, if_neg h1]
        rw [ih, hlen]
        conv_rhs => rw [Nat.clog_of_two_le (by norm_num) (by omega)]
        have h21 : ws.length + 2 - 1 = ws.length + 1 := by omega
        rw [h21]

theorem roundStep_even {α : Type _} (f : α → α → α) :
    ∀ ys : List α, Even ys.length → roundStep f ys = pairedPart f ys
  | [], _ => rfl
  | [a], h => by simp [Nat.even_iff] at h
  | a :: b :: rest, h => by
      have hr : Even rest.length := by
        rw [List.length_cons, List.length_cons, Nat.even_iff] at h
        rw [Nat.even_iff]
        omega
      simp [roundStep, pairedPart, roundStep_even f rest hr]

theorem roundStep_odd {α : Type _} (f : α → α → α) :
    ∀ (ys : List α) (h : ys ≠ []), Odd ys.length →
      roundStep f ys = pairedPart f ys ++ [ys.getLast h]
  | [], h, _ => absurd rfl h
  | [_], _, _ => rfl
  | a :: b :: c :: rest, h, hodd => by
      have hne : (c :: rest) ≠ [] := List.cons_ne_nil c rest
      have hodd' : Odd (c :: rest).length := by
        simp only [List.length_cons, Nat.odd_iff] at hodd ⊢
        omega
      have ih := roundStep_odd f (c :: rest) hne hodd'
      have hg : (a :: b :: c :: rest).getLast h = (c :: rest).getLast hne := by
        rw [List.getLast_cons, List.getLast_cons]
      simp only [roundStep, pairedPart, ih, hg, List.cons_append]
  | [a, b], _, hodd => by simp [Nat.odd_iff] at hodd

theorem roundStep_val_sum :
    ∀ ws : List CTExpr, ((roundStep pairwise_max ws).map val).sum = (ws.map val).sum
  | [] => rfl
  | [_] => rfl
  | a :: b :: rest => by
      simp only [roundStep, List.map_cons, List.sum_cons, val_pairwise_max,
        roundStep_val_sum rest]
      ring

theorem reduceLoop_val_sum :
    ∀ (fuel : ℕ) (ws : List CTExpr),
      ((reduceLoop pairwise_max fuel ws).map val).sum = (ws.map val).sum
  | 0, _ => rfl
  | fuel + 1, ws => by
      by_cases h1 : ws.length ≤ 1
      · simp [reduceLoop, h1]
      · simp only [reduceLoop, if_neg h1]
        rw [reduceLoop_val_sum fuel (roundStep pairwise_max ws), roundStep_val_sum ws]

theorem sum_getD_mul (q : List ℚ) :
    ∀ (v : List ℚ) (d : ℕ), q.length = d → v.length = d →
      (∑ j ∈ Finset.range d, q.getD j 0 * v.getD j 0) = dotProduct q v := by
  induction q with
  | nil =>
      intro v d hq hv
      rw [← hq] at hv ⊢
      simp only [List.length_nil] at hv ⊢
      rw [List.length_eq_zero.mp hv]
      simp [dotProduct]
  | cons x q ih =>
      intro v d hq hv
      cases v with
      | nil =>
          rw [← hv] at hq
          simp at hq
      | cons y v =>
          cases d with
          | zero => simp at hq
          | succ d =>
              rw [Finset.sum_range_succ']
              simp only [List.getD_cons_succ, List.getD_cons_zero]
              rw [ih v d (by simpa using hq) (by simpa using hv)]
              simp only [dotProduct, List.zipWith_cons_cons, List.sum_cons]
              ring

/-! ### Claim theorems -/

/-- C1 (code bug): the combiner `pairwise_max` of the tournament returns the
plain sum `EvalAdd(A, B)` instead of the SecureMax value
`(A + B + |A − B|) / 2`.  At the concrete scores `A = Enc [1]`, `B = Enc [1]`
the combiner decrypts to `2` while `secureMax(1,1) = 1`. -/
theorem pairwise_max_returns_sum_bug :
    val (pairwise_max (.enc [1]) (.enc [1])) = 2 ∧
    secureMaxSpec (val (.enc [1])) (val (.enc [1])) = 1 ∧
    val (pairwise_max (.enc [1]) (.enc [1])) ≠
      secureMaxSpec (val (.enc [1])) (val (.enc [1])) := by
  refine ⟨?_, ?_, ?_⟩ <;> norm_num [val, slots, pairwise_max, secureMaxSpec]

/-- C2: under the noise-free semantics (where `EvalAdd` is addition), the
tournament reduction of any non-empty list of encrypted scores returns a
ciphertext whose value is the SUM of all input scores (each pairing returns
`EvalAdd(A, B)` and unpaired elements pass through); a single input is
returned unchanged. -/
theorem tournament_value_is_sum (scores : List CTExpr) (h : scores ≠ []) :
    val ((tournament pairwise_max scores).headD (.enc [])) = (scores.map val).sum ∧
    ∀ c : CTExpr, tournament pairwise_max [c] = [c] := by
  constructor
  · have hlen := tournament_length_one pairwise_max scores h
    obtain ⟨c, hc⟩ := List.length_eq_one.mp hlen
    have hsum := reduceLoop_val_sum scores.length scores
    unfold tournament at hc ⊢
    rw [hc] at hsum ⊢
    simpa using hsum
  · intro c
    rfl

/-- Witness for C2 at the concrete scores `Enc [1], Enc [2], Enc [3]`. -/
theorem tournament_value_is_sum_witness :
    ([CTExpr.enc [1], CTExpr.enc [2], CTExpr.enc [3]] : List CTExpr) ≠ [] ∧
    (val ((tournament pairwise_max
        [CTExpr.enc [1], CTExpr.enc [2], CTExpr.enc [3]]).headD (.enc [])) =
      ([CTExpr.enc [1], CTExpr.enc [2], CTExpr.enc [3]].map val).sum ∧
     ∀ c : CTExpr, tournament pairwise_max [c] = [c]) :=
  ⟨List.cons_ne_nil _ _, tournament_value_is_sum _ (List.cons_ne_nil _ _)⟩

/-- C3: for every non-empty score list the tournament terminates in exactly
`⌈log2 N⌉` rounds leaving one element; an even-size round has no pass-through
(every output is a combination of an adjacent pair), and an odd-size round
passes exactly the last element through unchanged. -/
theorem tournament_rounds_spec (ws : List CTExpr) (h : ws ≠ []) :
    tournamentRounds pairwise_max ws = Nat.clog 2 ws.length ∧
    (tournament pairwise_max ws).length = 1 ∧
    (∀ ys : List CTExpr, Even ys.length →
      roundStep pairwise_max ys = pairedPart pairwise_max ys) ∧
    (∀ (ys : List CTExpr) (hy : ys ≠ []), Odd ys.length →
      roundStep pairwise_max ys = pairedPart pairwise_max ys ++ [ys.getLast hy]) :=
  ⟨reduceRounds_eq_clog pairwise_max ws.length ws (Nat.le_succ _),
   tournament_length_one pairwise_max ws h,
   fun ys => roundStep_even pairwise_max ys,
   fun ys hy => roundStep_odd pairwise_max ys hy⟩

/-- Witness for C3 at the concrete scores `Enc [1], Enc [2], Enc [3]`. -/
theorem tournament_rounds_spec_witness :
    ([CTExpr.enc [1], CTExpr.enc [2], CTExpr.enc [3]] : List CTExpr) ≠ [] ∧
    (tournamentRounds pairwise_max [CTExpr.enc [1], CTExpr.enc [2], CTExpr.enc [3]] =
       Nat.clog 2 [CTExpr.enc [1], CTExpr.enc [2], CTExpr.enc [3]].length ∧
     (tournament pairwise_max [CTExpr.enc [1], CTExpr.enc [2], CTExpr.enc [3]]).length = 1 ∧
     (∀ ys : List CTExpr, Even ys.length →
       roundStep pairwise_max ys = pairedPart pairwise_max ys) ∧
     (∀ (ys : List CTExpr) (hy : ys ≠ []), Odd ys.length →
       roundStep pairwise_max ys = pairedPart pairwise_max ys ++ [ys.getLast hy])) :=
  ⟨List.cons_ne_nil _ _, tournament_rounds_spec _ (List.cons_ne_nil _ _)⟩

/-- C4: the uniqueness decision is the strict comparison
`is_unique = (max < threshold)`; a maximum exactly equal to the threshold is
decided not-unique. -/
theorem uniqueness_decision_strict (m t : ℚ) :
    (isUnique m t = true ↔ m < t) ∧ isUnique t t = false := by
  refine ⟨?_, ?_⟩ <;> simp [isUnique]

/-- C6: each encrypted similarity is one element-wise `EvalMult` (exactly one
multiplication in its history) followed by an `EvalSum` over the `d` packed
slots, and under the noise-free semantics its decrypted value equals the
plaintext dot product exactly (approximation error zero in this model). -/
theorem similarity_dot (q v : List ℚ) (d : ℕ) (hq : q.length = d) (hv : v.length = d) :
    val (simCT q v d) = dotProduct q v ∧ multCount (simCT q v d) = 1 := by
  constructor
  · simp only [val, simCT, slots, zero_add]
    exact sum_getD_mul q v d hq hv
  · rfl

/-- Witness for C6 at `q = [1, 2]`, `v = [3, 4]`, `d = 2`. -/
theorem similarity_dot_witness :
    ([(1 : ℚ), 2] : List ℚ).length = 2 ∧ ([(3 : ℚ), 4] : List ℚ).length = 2 ∧
    (val (simCT [(1 : ℚ), 2] [(3 : ℚ), 4] 2) = dotProduct [(1 : ℚ), 2] [(3 : ℚ), 4] ∧
     multCount (simCT [(1 : ℚ), 2] [(3 : ℚ), 4] 2) = 1) :=
  ⟨rfl, rfl, similarity_dot [(1 : ℚ), 2] [(3 : ℚ), 4] 2 rfl rfl⟩

theorem containsSub_roundStep :
    ∀ ws : List CTExpr, (∀ c ∈ ws, containsSub c = false) →
      ∀ c ∈ roundStep pairwise_max ws, containsSub c = false
  | [], _ => by intro c hc; simp [roundStep] at hc
  | [a], h => by
      intro c hc
      simp only [roundStep, List.mem_singleton] at hc
      subst hc
      exact h _ (List.mem_singleton.mpr rfl)
  | a :: b :: rest, h => by
      intro c hc
      simp only [roundStep, List.mem_cons] at hc
      rcases hc with rfl | hc
      · have ha := h a (by simp)
        have hb := h b (by simp)
        simp [pairwise_max, containsSub, ha, hb]
      · exact containsSub_roundStep rest (fun x hx => h x (by simp [hx])) c hc

theorem containsSub_reduceLoop :
    ∀ (fuel : ℕ) (ws : List CTExpr), (∀ c ∈ ws, containsSub c = false) →
      ∀ c ∈ reduceLoop pairwise_max fuel ws, containsSub c = false
  | 0, ws, h => by intro c hc; simp only [reduceLoop] at hc; exact h c hc
  | fuel + 1, ws, h => by
      intro c hc
      by_cases h1 : ws.length ≤ 1
      · simp only [reduceLoop, if_pos h1] at hc
        exact h c hc
      · simp only [reduceLoop, if_neg h1] at hc
        exact containsSub_reduceLoop fuel _ (containsSub_roundStep ws h) c hc

theorem containsSub_encMaxSim (q : List ℚ) (db : List (List ℚ)) (batch : ℕ) (h : db ≠ []) :
    containsSub (encMaxSim q db batch) = false := by
  have hsims : ∀ s ∈ encSims q db batch, containsSub s = false := by
    intro s hs
    simp only [encSims, List.mem_map] at hs
    obtain ⟨v, _, rfl⟩ := hs
    rfl
  have hne : encSims q db batch ≠ [] := by simp [encSims, h]
  have hne2 : tournament pairwise_max (encSims q db batch) ≠ [] :=
    reduceLoop_ne_nil pairwise_max _ _ hne
  cases hE : tournament pairwise_max (encSims q db batch) with
  | nil => exact absurd hE hne2
  | cons c cs =>
      have hmem : c ∈ tournament pairwise_max (encSims q db batch) := by rw [hE]; simp
      have hc := containsSub_reduceLoop (encSims q db batch).length _ hsims c
        (by unfold tournament at hmem; exact hmem)
      unfold encMaxSim
      rw [hE]
      simpa using hc

theorem reduceLoop_headD_isAdd :
    ∀ (fuel : ℕ) (ws : List CTExpr), 2 ≤ ws.length → ws.length ≤ fuel + 1 →
      ∃ a b, (reduceLoop pairwise_max fuel ws).headD (.enc []) = .evalAdd a b
  | 0, _, h2, hle => (by omega : False).elim
  | fuel + 1, ws, h2, hle => by
      have h1 : ¬ ws.length ≤ 1 := by omega
      simp only [reduceLoop, if_neg h1]
      have hlen := roundStep_length pairwise_max ws
      by_cases hc : 2 ≤ (roundStep pairwise_max ws).length
      · exact reduceLoop_headD_isAdd fuel _ hc (by omega)
      · have hn : ws.length = 2 := by omega
        obtain ⟨a, b, rfl⟩ := List.length_eq_two.mp hn
        refine ⟨a, b, ?_⟩
        have hr : roundStep pairwise_max [a, b] = [CTExpr.evalAdd a b] := by
          simp [roundStep, pairwise_max]
        rw [hr, reduceLoop_singleton]
        rfl

/-- C5 counterexample: in the decision phase of `main` (the region between the
tournament and the final comparison) no homomorphic subtraction event occurs
at all — so in particular `encDiff = encMax − Encrypt(threshold)` is never
computed before (or after) the decryption request.  Shown at the concrete run
with one database vector `[1]`, query `[1]`, threshold `1/2`. -/
theorem no_homomorphic_threshold_sub :
    ¬ ∃ e ∈ decisionEvents (encMaxSim [1] [[1]] 1) (1 / 2 : ℚ) 64, isSubEv e = true := by
  decide

/-- C5 amended: the decision phase only encrypts the packed threshold (which
is then never used) and decrypts `enc_maxSim` directly; no homomorphic
subtraction event occurs, and the decrypted ciphertext contains no
subtraction node anywhere in its operation history — the comparison happens
on the decrypted plaintext against the plaintext threshold. -/
theorem decision_no_sub (q : List ℚ) (db : List (List ℚ)) (batch dim : ℕ) (t : ℚ)
    (h : db ≠ []) :
    decisionEvents (encMaxSim q db batch) t dim =
      [.encryptEv (thresholdVec dim t), .decryptEv (encMaxSim q db batch)] ∧
    containsSub (encMaxSim q db batch) = false ∧
    (decisionEvents (encMaxSim q db batch) t dim).filter isSubEv = [] :=
  ⟨rfl, containsSub_encMaxSim q db batch h, rfl⟩

/-- Witness for the amended C5 at the one-vector database `[[1]]`. -/
theorem decision_no_sub_witness :
    ([[1]] : List (List ℚ)) ≠ [] ∧
    (decisionEvents (encMaxSim [1] [[1]] 1) (1 / 2 : ℚ) 64 =
       [.encryptEv (thresholdVec 64 (1 / 2 : ℚ)), .decryptEv (encMaxSim [1] [[1]] 1)] ∧
     containsSub (encMaxSim [1] [[1]] 1) = false ∧
     (decisionEvents (encMaxSim [1] [[1]] 1) (1 / 2 : ℚ) 64).filter isSubEv = []) :=
  ⟨List.cons_ne_nil _ _, decision_no_sub [1] [[1]] 1 64 (1 / 2) (List.cons_ne_nil _ _)⟩

/-- C7 counterexample: at the demo configuration (`DB_N = 100`) the setup
trace contains no depth-budget validation step at all, yet encryption events
do occur — so no validation happens before any ciphertext is produced. -/
theorem no_depth_budget_check :
    SetupEvent.depthBudgetCheck ∉ mainSetupEvents 100 ∧
    (mainSetupEvents 100).any isEncryptEvent = true := by
  decide

/-- C7 amended: the program performs no depth-budget validation for any
database size; the only pre-encryption failure check is the `kp0.good()`
key-generation check, and all `dbN + 1` encryptions proceed unconditionally
with the fixed `MULT_DEPTH = 10`. -/
theorem setup_no_validation (dbN : ℕ) :
    SetupEvent.depthBudgetCheck ∉ mainSetupEvents dbN ∧
    ((mainSetupEvents dbN).filter isEncryptEvent).length = dbN + 1 ∧
    SetupEvent.keyGenCheck ∈ mainSetupEvents dbN := by
  refine ⟨?_, ?_, ?_⟩
  · simp [mainSetupEvents]
  · have hmap : ((List.range dbN).map SetupEvent.encryptVector).filter isEncryptEvent
        = (List.range dbN).map SetupEvent.encryptVector := by
      apply List.filter_eq_self.mpr
      intro a ha
      obtain ⟨i, _, rfl⟩ := List.mem_map.mp ha
      rfl
    simp [mainSetupEvents, List.filter_append, hmap, isEncryptEvent]
  · simp [mainSetupEvents]

/-- C8: the only ciphertext the whole run ever passes to `Decrypt` is the
single final reduced maximum; for a database of at least two items it is
neither any individual encrypted similarity nor an encryption of a plaintext
input vector. -/
theorem main_decrypts_only_final (q : List ℚ) (db : List (List ℚ)) (batch : ℕ)
    (h : 2 ≤ db.length) :
    (mainDecrypts q db batch).length = 1 ∧
    ∀ c ∈ mainDecrypts q db batch,
      (∀ s ∈ encSims q db batch, c ≠ s) ∧ ∀ v : List ℚ, c ≠ .enc v := by
  have hl : 2 ≤ (encSims q db batch).length := by simpa [encSims] using h
  obtain ⟨a, b, hab⟩ := reduceLoop_headD_isAdd (encSims q db batch).length
    (encSims q db batch) hl (Nat.le_succ _)
  have hmax : encMaxSim q db batch = .evalAdd a b := by
    unfold encMaxSim tournament
    exact hab
  refine ⟨rfl, ?_⟩
  intro c hc
  simp only [mainDecrypts, List.mem_singleton] at hc
  subst hc
  constructor
  · intro s hs
    simp only [encSims, List.mem_map] at hs
    obtain ⟨v, _, rfl⟩ := hs
    rw [hmax]
    intro hcon
    simp [simCT] at hcon
  · intro v
    rw [hmax]
    intro hcon
    exact CTExpr.noConfusion hcon

/-- Witness for C8 at the two-vector database `[[1], [2]]`. -/
theorem main_decrypts_only_final_witness :
    2 ≤ ([[1], [2]] : List (List ℚ)).length ∧
    ((mainDecrypts [1] [[1], [2]] 1).length = 1 ∧
     ∀ c ∈ mainDecrypts [1] [[1], [2]] 1,
       (∀ s ∈ encSims [1] [[1], [2]] 1, c ≠ s) ∧ ∀ v : List ℚ, c ≠ .enc v) :=
  ⟨by decide, main_decrypts_only_final [1] [[1], [2]] 1 (by decide)⟩

/-- C9 counterexample: `normalize_inplace` on the zero vector silently
succeeds and returns the vector unchanged — no error is surfaced and the
item proceeds through the pipeline. -/
theorem normalize_zero_silent :
    normSq [(0 : ℚ), 0, 0] = 0 ∧ normalize Rat.sqrt [(0 : ℚ), 0, 0] = [0, 0, 0] := by
  have h0 : normSq [(0 : ℚ), 0, 0] = 0 := by norm_num [normSq]
  have hs : Rat.sqrt 0 = 0 := by decide
  exact ⟨h0, by simp [normalize, h0, hs]⟩

/-- C9 amended: for every zero-norm vector (and any model of `std::sqrt`
with `sqrt 0 = 0`), `normalize_inplace` takes the `s == 0` early-return and
leaves the vector unchanged, surfacing no error. -/
theorem normalize_zero_norm (sqrtf : ℚ → ℚ) (v : List ℚ) (h0 : normSq v = 0)
    (hs : sqrtf 0 = 0) : normalize sqrtf v = v := by
  simp [normalize, h0, hs]

/-- Witness for the amended C9 at the zero vector `[0, 0]` with `Rat.sqrt`. -/
theorem normalize_zero_norm_witness :
    normSq [(0 : ℚ), 0] = 0 ∧ Rat.sqrt 0 = 0 ∧
    normalize Rat.sqrt [(0 : ℚ), 0] = [0, 0] :=
  ⟨by norm_num [normSq], by decide,
   normalize_zero_norm Rat.sqrt [0, 0] (by norm_num [normSq]) (by decide)⟩

/-- C10 (spec-modelled): the threshold-decryption coordinator fails with
`InsufficientShares` on fewer than `t` partial decryptions and produces no
plaintext; with all `t = n` additive shares it recovers exactly the
plaintext `c0 + c1 · sk`; the minimal `t = n = 1` configuration goes through
the very same `coordinatorDecrypt` interface. -/
theorem coordinator_contract :
    (∀ (t : ℕ) (partials : List ℚ) (c0 : ℚ), partials.length < t →
      coordinatorDecrypt t partials c0 = .error .insufficientShares) ∧
    (∀ (shares : List ℚ) (c0 c1 : ℚ),
      coordinatorDecrypt shares.length (shares.map fun s => partialDecrypt s c1) c0 =
        .ok (decryptFull c0 c1 shares.sum)) ∧
    (∀ (sk c0 c1 : ℚ),
      coordinatorDecrypt 1 [partialDecrypt sk c1] c0 = .ok (decryptFull c0 c1 sk)) := by
  refine ⟨?_, ?_, ?_⟩
  · intro t partials c0 hlt
    simp [coordinatorDecrypt, hlt]
  · intro shares c0 c1
    have hsum : (shares.map fun s => partialDecrypt s c1).sum = c1 * shares.sum := by
      simpa [partialDecrypt] using List.sum_map_mul_left shares id c1
    simp [coordinatorDecrypt, hsum, decryptFull]
  · intro sk c0 c1
    simp [coordinatorDecrypt, partialDecrypt, decryptFull]

/-- Witness for C10: a sub-quorum call fails, the `t = n = 1` call recovers
the plaintext. -/
theorem coordinator_contract_witness :
    coordinatorDecrypt 2 [(5 : ℚ)] 0 = .error .insufficientShares ∧
    coordinatorDecrypt 1 [partialDecrypt 7 3] 2 = .ok (decryptFull 2 3 7) :=
  ⟨coordinator_contract.1 2 [(5 : ℚ)] 0 (by decide), coordinator_contract.2.2 7 2 3⟩

end Mercle
